import Mathlib

/-!
Verification of the in-memory multi-attribute indexing containers of the
`gnu-assembler-language-support` repository:

* `IndexedCollection` (src/src/web/IndexedCollection.ts) — a flat
  multi-index collection: a deduplicated membership `Set` plus one
  `Map<value, Set<item>>` per declared attribute key.
* `CompositeIndex` (src/src/web/CompositeIndex.ts) — a membership `Set`
  plus a nested map (trie) keyed by an ordered tuple of attributes,
  terminating in a bucket `Set`.

Items are stored by reference identity; we model an item by a natural
number identity.  Attribute access `item[key]` is modelled by a valuation
function `Item → Key → JSVal` supplied at each call (a JavaScript object
read happens at call time, so in-place mutation between calls is modelled
by calling with a different valuation).  JavaScript `Map`s and `Set`s are
insertion-ordered; we model them as association lists and duplicate-free
lists.  `Map` keys use SameValueZero equality, modelled by decidable
equality on `JSVal`.
-/

namespace GasIndex

/-- JavaScript primitive values used as attribute values and `Map` keys.
SameValueZero key equality is modelled by structural decidable equality. -/
inductive JSVal where
  | undef
  | null
  | num (n : Int)
  | str (s : String)
  | bool (b : Bool)
deriving DecidableEq, Repr

/-- An item, identified by reference identity. -/
abbrev Item := Nat

/-- An attribute name. -/
abbrev Key := String

/-- Attribute access `item[key]` at a given moment; reading an absent
property yields `undefined`, so the function is total. -/
abbrev Valuation := Item → Key → JSVal

/-! ### JavaScript `Map` and `Set` models

A `Map` is an insertion-ordered association list with pairwise distinct
keys (every map below is built from `[]` by `mset`/`mdel`, which keep
keys distinct).  A `Set` is an insertion-ordered duplicate-free list. -/

/-- Model of `Map.get`: value at the first (unique) matching key. -/
def mget {α β : Type} [DecidableEq α] : List (α × β) → α → Option β
  | [], _ => none
  | (c, b) :: m, a => if c = a then some b else mget m a

/-- Model of `Map.set`: update the entry in place if the key is present (keys are
unique, so the first match is the entry), else append a new entry. -/
def mset {α β : Type} [DecidableEq α] : List (α × β) → α → β → List (α × β)
  | [], a, b => [(a, b)]
  | (c, d) :: m, a, b => if c = a then (a, b) :: m else (c, d) :: mset m a b

/-- Model of `Map.delete`: drop the entry with the given key (keys are unique, so
dropping every match is dropping the one entry). -/
def mdel {α β : Type} [DecidableEq α] : List (α × β) → α → List (α × β)
  | [], _ => []
  | (c, d) :: m, a => if c = a then mdel m a else (c, d) :: mdel m a

/-- Model of `Map.keys()` in insertion order. -/
def mkeys {α β : Type} (m : List (α × β)) : List α := m.map Prod.fst

/-- Model of `Set.add`: append unless already present (by identity). -/
def sadd (l : List Item) (x : Item) : List Item := if x ∈ l then l else l ++ [x]

/-- Model of `Set.delete`: remove the element if present. -/
def sdel (l : List Item) (x : Item) : List Item := l.filter (fun y => y ≠ x)

@[simp] theorem mget_nil {α β : Type} [DecidableEq α] (a : α) :
    mget ([] : List (α × β)) a = none := rfl

theorem mget_mset_self {α β : Type} [DecidableEq α] (m : List (α × β)) (a : α) (b : β) :
    mget (mset m a b) a = some b := by
  induction m with
  | nil => simp [mset, mget]
  | cons p m ih =>
    obtain ⟨c, d⟩ := p
    by_cases h : c = a <;> simp [mset, mget, h, ih]

theorem mget_mset_ne {α β : Type} [DecidableEq α] (m : List (α × β)) (a c : α) (b : β)
    (h : c ≠ a) : mget (mset m a b) c = mget m c := by
  induction m with
  | nil => simp [mset, mget, Ne.symm h]
  | cons p m ih =>
    obtain ⟨e, d⟩ := p
    by_cases he : e = a
    · subst he
      simp [mset, mget, Ne.symm h]
    · simp [mset, mget, he, ih]

/-- Case analysis for a lookup in an updated map. -/
theorem mget_mset_cases {α β : Type} [DecidableEq α] (m : List (α × β)) (a c : α) (b b' : β)
    (h : mget (mset m a b) c = some b') :
    (c = a ∧ b' = b) ∨ mget m c = some b' := by
  by_cases hc : c = a
  · subst hc
    rw [mget_mset_self] at h
    exact Or.inl ⟨rfl, (Option.some_inj.mp h).symm⟩
  · rw [mget_mset_ne m a c b hc] at h
    exact Or.inr h

theorem mget_mdel_self {α β : Type} [DecidableEq α] (m : List (α × β)) (a : α) :
    mget (mdel m a) a = none := by
  induction m with
  | nil => simp [mdel]
  | cons p m ih =>
    obtain ⟨c, d⟩ := p
    by_cases h : c = a <;> simp [mdel, mget, h, ih]

theorem mget_mdel_ne {α β : Type} [DecidableEq α] (m : List (α × β)) (a c : α)
    (h : c ≠ a) : mget (mdel m a) c = mget m c := by
  induction m with
  | nil => simp [mdel]
  | cons p m ih =>
    obtain ⟨e, d⟩ := p
    by_cases he : e = a
    · subst he
      simp [mdel, mget, Ne.symm h, ih]
    · simp [mdel, mget, he, ih]

theorem mget_mdel_cases {α β : Type} [DecidableEq α] (m : List (α × β)) (a c : α) (b : β)
    (h : mget (mdel m a) c = some b) : mget m c = some b := by
  by_cases hc : c = a
  · subst hc
    rw [mget_mdel_self] at h
    exact absurd h (by simp)
  · rwa [mget_mdel_ne m a c hc] at h

@[simp] theorem mkeys_nil {α β : Type} : mkeys ([] : List (α × β)) = [] := rfl

@[simp] theorem mkeys_cons {α β : Type} (c : α) (d : β) (m : List (α × β)) :
    mkeys ((c, d) :: m) = c :: mkeys m := rfl

theorem mem_mkeys_mset {α β : Type} [DecidableEq α] (m : List (α × β)) (a c : α) (b : β) :
    c ∈ mkeys (mset m a b) ↔ c = a ∨ c ∈ mkeys m := by
  induction m with
  | nil => simp [mset]
  | cons p m ih =>
    obtain ⟨e, d⟩ := p
    by_cases he : e = a
    · subst he
      simp [mset]
    · simp [mset, he, ih]
      tauto

/-- Updating a key that is already present does not change the key list. -/
theorem mkeys_mset_present {α β : Type} [DecidableEq α] (m : List (α × β)) (a : α) (b : β)
    (h : (mget m a).isSome) : mkeys (mset m a b) = mkeys m := by
  induction m with
  | nil => simp [mget] at h
  | cons p m ih =>
    obtain ⟨e, d⟩ := p
    by_cases he : e = a
    · subst he
      simp [mset]
    · simp [mget, he] at h
      simp [mset, he, ih h]

theorem mget_isSome_iff_mem_mkeys {α β : Type} [DecidableEq α] (m : List (α × β)) (a : α) :
    (mget m a).isSome ↔ a ∈ mkeys m := by
  induction m with
  | nil => simp [mget]
  | cons p m ih =>
    obtain ⟨e, d⟩ := p
    by_cases he : e = a
    · subst he
      simp [mget]
    · simp [mget, he, ih, Ne.symm he]

theorem mkeys_eq_nil {α β : Type} (m : List (α × β)) (h : mkeys m = []) : m = [] := by
  cases m with
  | nil => rfl
  | cons p m => simp [mkeys] at h

@[simp] theorem mem_sadd (l : List Item) (x y : Item) :
    y ∈ sadd l x ↔ y = x ∨ y ∈ l := by
  by_cases h : x ∈ l
  · simp [sadd, h]
    intro hy
    subst hy
    exact h
  · simp [sadd, h]
    tauto

theorem sadd_ne_nil (l : List Item) (x : Item) : sadd l x ≠ [] := by
  by_cases h : x ∈ l
  · simp only [sadd, if_pos h]
    intro hnil
    rw [hnil] at h
    simp at h
  · simp [sadd, h]

theorem sadd_nodup (l : List Item) (x : Item) (h : l.Nodup) : (sadd l x).Nodup := by
  by_cases hx : x ∈ l
  · simpa [sadd, hx] using h
  · simp [sadd, hx, List.nodup_append, h, hx]

theorem sadd_length (l : List Item) (x : Item) :
    (sadd l x).length = if x ∈ l then l.length else l.length + 1 := by
  by_cases hx : x ∈ l <;> simp [sadd, hx]

theorem sadd_of_mem (l : List Item) (x : Item) (h : x ∈ l) : sadd l x = l := by
  simp [sadd, h]

@[simp] theorem mem_sdel (l : List Item) (x y : Item) :
    y ∈ sdel l x ↔ y ∈ l ∧ y ≠ x := by
  simp [sdel]

theorem sdel_nodup (l : List Item) (x : Item) (h : l.Nodup) : (sdel l x).Nodup :=
  List.Nodup.filter _ h

theorem sdel_of_not_mem (l : List Item) (x : Item) (h : x ∉ l) : sdel l x = l := by
  simp only [sdel]
  rw [List.filter_eq_self]
  intro a ha
  simp only [ne_eq, decide_not, Bool.not_eq_eq_eq_not, Bool.not_true, decide_eq_false_iff_not]
  intro hax
  subst hax
  exact h ha

theorem sdel_length_of_mem (l : List Item) (x : Item) (hn : l.Nodup) (h : x ∈ l) :
    (sdel l x).length = l.length - 1 := by
  induction l with
  | nil => simp at h
  | cons y l ih =>
    rw [List.nodup_cons] at hn
    rcases List.mem_cons.mp h with rfl | hx
    · have h1 : sdel (x :: l) x = sdel l x := by
        simp [sdel, List.filter_cons]
      rw [h1, sdel_of_not_mem l x hn.1]
      simp
    · have hyx : y ≠ x := fun hh => hn.1 (hh ▸ hx)
      have h1 : sdel (y :: l) x = y :: sdel l x := by
        simp [sdel, List.filter_cons, hyx]
      rw [h1]
      simp only [List.length_cons]
      rw [ih hn.2 hx]
      have hlen : 1 ≤ l.length := List.length_pos.mpr (by rintro rfl; simp at hx)
      omega

/-! ### Flat multi-index collection (`IndexedCollection`)

State: `items = new Set<T>()`, `indexes = new Map<K, Map<T[K], Set<T>>>()`,
and the constructor argument `indexedKeys`.  Mutating methods that can hit
a JavaScript `TypeError` (dereferencing a missing per-key index map after
`clear()`) return the state reached so far paired with `false`; `true`
means the call ran to completion. -/

structure Flat where
  keys : List Key
  items : List Item
  indexes : List (Key × List (JSVal × List Item))
deriving DecidableEq, Repr

/-- Constructor: `for (const key of indexedKeys) this.indexes.set(key, new Map())`. -/
def initIndexes (ks : List Key) : List (Key × List (JSVal × List Item)) :=
  ks.foldl (fun m k => mset m k []) []

def Flat.init (ks : List Key) : Flat :=
  { keys := ks, items := [], indexes := initIndexes ks }

/-- Net effect on one index map of the body of `add`'s loop:
`if (!indexMap.has(value)) indexMap.set(value, new Set()); indexMap.get(value)!.add(item)`. -/
def bucketAdd (im : List (JSVal × List Item)) (v : JSVal) (x : Item) :
    List (JSVal × List Item) :=
  mset im v (sadd ((mget im v).getD []) x)

/-- The `for (const key of this.indexedKeys)` loop of `add`.  When
`this.indexes.get(key)!` is `undefined` (possible after `clear()`), the
subsequent `.has` call throws: we stop and report `false`. -/
def Flat.addLoop (val : Valuation) (x : Item) : List Key → Flat → Flat × Bool
  | [], s => (s, true)
  | k :: ks, s =>
    match mget s.indexes k with
    | none => (s, false)
    | some im =>
      Flat.addLoop val x ks
        { s with indexes := mset s.indexes k (bucketAdd im (val x k) x) }

/-- Method `add(item)`: `this.items.add(item)`, then index under each declared key. -/
def Flat.add (s : Flat) (val : Valuation) (x : Item) : Flat × Bool :=
  Flat.addLoop val x s.keys { s with items := sadd s.items x }

/-- Effect on one index map of the body of `remove`'s loop:
`const bucket = indexMap.get(value); if (bucket) { bucket.delete(item);
if (bucket.size === 0) indexMap.delete(value); }`. -/
def bucketRemove (im : List (JSVal × List Item)) (v : JSVal) (x : Item) :
    List (JSVal × List Item) :=
  match mget im v with
  | none => im
  | some b =>
    let b' := sdel b x
    if b'.length = 0 then mdel im v else mset im v b'

/-- The key loop of `remove`; `this.indexes.get(key)!` being `undefined`
makes the following `.get` call throw, reported as `false`. -/
def Flat.removeLoop (val : Valuation) (x : Item) : List Key → Flat → Flat × Bool
  | [], s => (s, true)
  | k :: ks, s =>
    match mget s.indexes k with
    | none => (s, false)
    | some im =>
      Flat.removeLoop val x ks
        { s with indexes := mset s.indexes k (bucketRemove im (val x k) x) }

/-- Method `remove(item)`: `if (!this.items.delete(item)) return;` then unindex. -/
def Flat.remove (s : Flat) (val : Valuation) (x : Item) : Flat × Bool :=
  if x ∈ s.items then
    Flat.removeLoop val x s.keys { s with items := sdel s.items x }
  else (s, true)

/-- Method `getBy(key, value)`: the bucket's contents, or `[]`. -/
def Flat.getBy (s : Flat) (k : Key) (v : JSVal) : List Item :=
  match mget s.indexes k with
  | none => []
  | some im => (mget im v).getD []

/-- Method `getIndexKeys(key)`: the keys of the per-attribute index map, or `[]`. -/
def Flat.getIndexKeys (s : Flat) (k : Key) : List JSVal :=
  match mget s.indexes k with
  | none => []
  | some im => mkeys im

/-- Method `removeBy(key, value)`: look up the bucket and `remove` each of its
items in order (a thrown `TypeError` in `remove` aborts the iteration). -/
def Flat.removeBy (s : Flat) (val : Valuation) (k : Key) (v : JSVal) : Flat × Bool :=
  match mget s.indexes k with
  | none => (s, true)
  | some im =>
    match mget im v with
    | none => (s, true)
    | some b =>
      b.foldl (fun acc x => if acc.2 then Flat.remove acc.1 val x else acc) (s, true)

/-- Method `filter(predicate)`: linear scan of the membership set. -/
def Flat.filter (s : Flat) (p : Item → Bool) : List Item := s.items.filter p

/-- Method `clear()`: `this.items.clear(); this.indexes.clear();` — note this
empties the *outer* `indexes` map, dropping the per-key index maps. -/
def Flat.clear (s : Flat) : Flat := { s with items := [], indexes := [] }

/-- Method `size()`: `this.items.size`. -/
def Flat.size (s : Flat) : Nat := s.items.length

/-- A mutating call on the flat collection, carrying the attribute values
the items have at the moment of the call (in-place mutation between calls
is modelled by different valuations). -/
inductive FlatOp where
  | add (val : Valuation) (x : Item)
  | remove (val : Valuation) (x : Item)
  | removeBy (val : Valuation) (k : Key) (v : JSVal)
  | clear

def FlatOp.app (s : Flat) : FlatOp → Flat × Bool
  | .add val x => s.add val x
  | .remove val x => s.remove val x
  | .removeBy val k v => s.removeBy val k v
  | .clear => (s.clear, true)

/-- Run a sequence of calls; `none` if some call threw (an uncaught
`TypeError` aborts the caller's sequence). -/
def Flat.runOps (s : Flat) : List FlatOp → Option Flat
  | [] => some s
  | op :: ops =>
    match FlatOp.app s op with
    | (s', true) => s'.runOps ops
    | (_, false) => none

/-- States reachable from a freshly constructed collection by completed calls. -/
def Flat.Reachable (ks : List Key) (s : Flat) : Prop :=
  ∃ ops, Flat.runOps (Flat.init ks) ops = some s

/-! ### Composite (ordered-key) index (`CompositeIndex`)

The source's `CompositeMap<T, K>` type is a nested map whose depth is the
length of the declared key list, bottoming out in a `Set<T>`; we mirror it
with a depth-indexed type.  The `add`/`remove`/`find` loops walk
`this.keys` in order, so we define them by recursion on the key list. -/

def CompositeMap : Nat → Type
  | 0 => List Item
  | n + 1 => List (JSVal × CompositeMap n)

/-- Constructor index: `new Set()` for an empty key list, `new Map()` otherwise. -/
def cmEmpty : (ks : List Key) → CompositeMap ks.length
  | [] => ([] : List Item)
  | _ :: _ => []

/-- The `while` loop of `add` (with `f k` the item's value `item[key]`):
never entered when `keys` is empty; at the last key the item is inserted
into the terminal bucket (created if absent); otherwise walk or create the
intermediate map. -/
def cmAdd (f : Key → JSVal) (x : Item) : (ks : List Key) → CompositeMap ks.length → CompositeMap ks.length
  | [], b => b
  | [k], m => mset m (f k) (sadd ((mget m (f k)).getD []) x)
  | k :: k' :: ks, m =>
    mset m (f k) (cmAdd f x (k' :: ks) ((mget m (f k)).getD (cmEmpty (k' :: ks))))

/-- The `while` loop of `remove`: never entered when `keys` is empty; at
the last key delete from the bucket and prune it when it empties; at an
intermediate key, a missing child map means `return`. -/
def cmRemove (f : Key → JSVal) (x : Item) : (ks : List Key) → CompositeMap ks.length → CompositeMap ks.length
  | [], b => b
  | [k], m =>
    match mget m (f k) with
    | none => m
    | some b =>
      let b' := sdel b x
      if b'.length = 0 then mdel m (f k) else mset m (f k) b'
  | k :: k' :: ks, m =>
    match mget m (f k) with
    | none => m
    | some next => mset m (f k) (cmRemove f x (k' :: ks) next)

/-- The `while` loop of `find` (with `q k` the query's value for `key`):
falls through to the trailing `return []` when `keys` is empty; at the
last key returns the bucket's contents or `[]`; a missing step returns `[]`. -/
def cmFind (q : Key → JSVal) : (ks : List Key) → CompositeMap ks.length → List Item
  | [], _ => []
  | [k], m => (mget m (q k)).getD []
  | k :: k' :: ks, m =>
    match mget m (q k) with
    | none => []
    | some next => cmFind q (k' :: ks) next

/-- Composite index state: `items = new Set<T>()` plus the nested index.
The key list is fixed at construction, so it is a parameter. -/
structure Comp (ks : List Key) where
  items : List Item
  index : CompositeMap ks.length

def Comp.init (ks : List Key) : Comp ks := ⟨[], cmEmpty ks⟩

/-- Method `add(item)`: `if (!this.items.has(item))` insert into membership and
walk the key list; a second `add` of the same reference is ignored. -/
def Comp.add {ks : List Key} (s : Comp ks) (val : Valuation) (x : Item) : Comp ks :=
  if x ∈ s.items then s
  else ⟨sadd s.items x, cmAdd (val x) x ks s.index⟩

/-- Method `remove(item)`: `if (this.items.has(item))` delete from membership and
walk the key list by the item's current values. -/
def Comp.remove {ks : List Key} (s : Comp ks) (val : Valuation) (x : Item) : Comp ks :=
  if x ∈ s.items then ⟨sdel s.items x, cmRemove (val x) x ks s.index⟩ else s

/-- Method `find(query)`: walk the nested maps by the query's value per key. -/
def Comp.find {ks : List Key} (s : Comp ks) (q : Key → JSVal) : List Item :=
  cmFind q ks s.index

/-- A mutating call on the composite index, with the valuation at call time. -/
inductive CompOp where
  | add (val : Valuation) (x : Item)
  | remove (val : Valuation) (x : Item)

def Comp.run {ks : List Key} (s : Comp ks) : List CompOp → Comp ks
  | [] => s
  | CompOp.add val x :: ops => (s.add val x).run ops
  | CompOp.remove val x :: ops => (s.remove val x).run ops

def Comp.Reachable (ks : List Key) (s : Comp ks) : Prop :=
  ∃ ops, (Comp.init ks).run ops = s

/-- A call on the composite index under a fixed valuation: items'
attribute values do not change while the index is in use. -/
inductive CompOpF where
  | add (x : Item)
  | remove (x : Item)

def Comp.runF {ks : List Key} (val : Valuation) (s : Comp ks) : List CompOpF → Comp ks
  | [] => s
  | CompOpF.add x :: ops => (s.add val x).runF val ops
  | CompOpF.remove x :: ops => (s.remove val x).runF val ops

/-- States reachable by add/remove calls whose items keep fixed attribute
values throughout. -/
def Comp.ReachableF (ks : List Key) (val : Valuation) (s : Comp ks) : Prop :=
  ∃ ops, Comp.runF val (Comp.init ks) ops = s

/-! ### Stateful transcriptions of the query operations

The query methods (`getBy`, `getIndexKeys`, `filter`, `size`, `find`)
contain only `Map.get` / `Set` reads; transcribing them statement by
statement with the state threaded through shows no branch applies a map
or set update. -/

def Flat.getByS (s : Flat) (k : Key) (v : JSVal) : List Item × Flat :=
  match mget s.indexes k with
  | none => ([], s)
  | some im =>
    match mget im v with
    | none => ([], s)
    | some b => (b, s)

def Flat.getIndexKeysS (s : Flat) (k : Key) : List JSVal × Flat :=
  match mget s.indexes k with
  | none => ([], s)
  | some im => (mkeys im, s)

def Flat.filterS (s : Flat) (p : Item → Bool) : List Item × Flat :=
  (s.items.filter p, s)

def Flat.sizeS (s : Flat) : Nat × Flat := (s.items.length, s)

def Comp.findS {ks : List Key} (s : Comp ks) (q : Key → JSVal) : List Item × Comp ks :=
  (cmFind q ks s.index, s)

/-! ### Concrete valuations for counterexamples and witnesses -/

/-- Every attribute of every item reads as the number 1. -/
def valOne : Valuation := fun _ _ => JSVal.num 1

/-- Every attribute of every item reads as the number 2 (the state of
`valOne`-items after an in-place mutation). -/
def valTwo : Valuation := fun _ _ => JSVal.num 2

/-- Every attribute of every item reads as `undefined`. -/
def valUndef : Valuation := fun _ _ => JSVal.undef

/-- A query whose every component is `undefined`. -/
def qUndef : Key → JSVal := fun _ => JSVal.undef

/-! ### Lemmas about `Flat.add` -/

theorem addLoop_items (val : Valuation) (x : Item) :
    ∀ (ks' : List Key) (s : Flat),
      (Flat.addLoop val x ks' s).1.items = s.items ∧
      (Flat.addLoop val x ks' s).1.keys = s.keys := by
  intro ks'
  induction ks' with
  | nil => intro s; exact ⟨rfl, rfl⟩
  | cons k0 ks' ih =>
    intro s
    simp only [Flat.addLoop]
    cases hm : mget s.indexes k0 with
    | none => exact ⟨rfl, rfl⟩
    | some im => exact ih _

theorem bucketAdd_mono (im : List (JSVal × List Item)) (v vx : JSVal) (x y : Item)
    (h : y ∈ (mget im v).getD []) : y ∈ (mget (bucketAdd im vx x) v).getD [] := by
  by_cases hv : v = vx
  · subst hv
    rw [bucketAdd, mget_mset_self]
    simp only [Option.getD_some, mem_sadd]
    exact Or.inr h
  · rw [bucketAdd, mget_mset_ne _ _ _ _ hv]
    exact h

theorem addLoop_getBy_mono (val : Valuation) (x : Item) :
    ∀ (ks' : List Key) (s : Flat) (k : Key) (v : JSVal) (y : Item),
      y ∈ s.getBy k v → y ∈ (Flat.addLoop val x ks' s).1.getBy k v := by
  intro ks'
  induction ks' with
  | nil => intro s k v y h; exact h
  | cons k0 ks' ih =>
    intro s k v y h
    simp only [Flat.addLoop]
    cases hm : mget s.indexes k0 with
    | none => exact h
    | some im =>
      apply ih
      unfold Flat.getBy at h ⊢
      by_cases hk : k = k0
      · subst hk
        simp only [hm] at h
        simp only [mget_mset_self]
        exact bucketAdd_mono im v (val x k) x y h
      · simp only [mget_mset_ne _ _ _ _ hk]
        exact h

theorem addLoop_indexed (val : Valuation) (x : Item) :
    ∀ (ks' : List Key) (s : Flat), (Flat.addLoop val x ks' s).2 = true →
      ∀ k ∈ ks', x ∈ (Flat.addLoop val x ks' s).1.getBy k (val x k) := by
  intro ks'
  induction ks' with
  | nil => intro s _ k hk; simp at hk
  | cons k0 ks' ih =>
    intro s hok k hk
    simp only [Flat.addLoop] at hok ⊢
    cases hm : mget s.indexes k0 with
    | none => simp [hm] at hok
    | some im =>
      simp only [hm] at hok ⊢
      rcases List.mem_cons.mp hk with rfl | hk'
      · apply addLoop_getBy_mono
        simp [Flat.getBy, mget_mset_self, bucketAdd]
      · exact ih _ hok k hk'

/-- Claim C1, corrected behaviour of `add` on the flat collection: `add`
never removes an item from any bucket (old placements survive), it inserts
the item into the bucket of its current value for every declared key, and
membership is the identity-set insertion. -/
theorem flat_add_no_reindex :
    (∀ (s : Flat) (val : Valuation) (x : Item) (k : Key) (v : JSVal) (y : Item),
        y ∈ s.getBy k v → y ∈ (s.add val x).1.getBy k v) ∧
    (∀ (s : Flat) (val : Valuation) (x : Item), (s.add val x).2 = true →
        ∀ k ∈ s.keys, x ∈ (s.add val x).1.getBy k (val x k)) ∧
    (∀ (s : Flat) (val : Valuation) (x : Item), (s.add val x).1.items = sadd s.items x) := by
  refine ⟨?_, ?_, ?_⟩
  · intro s val x k v y h
    exact addLoop_getBy_mono val x s.keys _ k v y h
  · intro s val x hok k hk
    exact addLoop_indexed val x s.keys _ hok k hk
  · intro s val x
    exact (addLoop_items val x s.keys _).1

/-- Witness for `flat_add_no_reindex`: after `add`ing item 0 with all
attributes reading 1, mutating them to 2 and re-`add`ing, the bucket for
the old value 1 still contains the item, the bucket for the new value 2
contains it too, and membership is unchanged. -/
theorem flat_add_no_reindex_witness :
    (0 ∈ ((Flat.init ["k"]).add valOne 0).1.getBy "k" (JSVal.num 1)) ∧
    (0 ∈ (((Flat.init ["k"]).add valOne 0).1.add valTwo 0).1.getBy "k" (JSVal.num 1)) ∧
    ((((Flat.init ["k"]).add valOne 0).1.add valTwo 0).2 = true) ∧
    (0 ∈ (((Flat.init ["k"]).add valOne 0).1.add valTwo 0).1.getBy "k" (JSVal.num 2)) ∧
    ((((Flat.init ["k"]).add valOne 0).1.add valTwo 0).1.items =
      sadd ((Flat.init ["k"]).add valOne 0).1.items 0) :=
  ⟨by decide,
   flat_add_no_reindex.1 _ valTwo 0 "k" (JSVal.num 1) 0 (by decide),
   by decide,
   flat_add_no_reindex.2.1 _ valTwo 0 (by decide) "k" (by decide),
   flat_add_no_reindex.2.2 _ valTwo 0⟩

/-- Claim C1 as stated is false: add item 0 (attributes all 1) to a flat
collection indexed on "k", mutate its attributes to 2 in place, `add` the
same reference again.  The claim says `getBy "k" 1` is then empty; in the
code the item was never removed from the old bucket, so it is still there. -/
theorem flat_add_reindex_counterexample :
    Flat.getBy (((Flat.init ["k"]).add valOne 0).1.add valTwo 0).1 "k" (JSVal.num 1) = [0] ∧
    ¬ (Flat.getBy (((Flat.init ["k"]).add valOne 0).1.add valTwo 0).1 "k" (JSVal.num 1)
        = []) := by

  exact ⟨by decide, by decide⟩

/-- Claim C2 is a code bug: `clear()` empties the outer `indexes` map
instead of resetting the per-key maps, so the freshly constructed state
(with an empty index map per declared key) is not restored; the next
`add` dereferences a missing map and throws (`false`), after having
already inserted the item into the membership set. -/
theorem flat_clear_breaks_add :
    (((Flat.init ["id"]).add valOne 0).2 = true) ∧
    ((Flat.init ["id"]).indexes = [("id", [])]) ∧
    ((((Flat.init ["id"]).add valOne 0).1.clear).indexes = []) ∧
    (((((Flat.init ["id"]).add valOne 0).1.clear).add valOne 0).2 = false) ∧
    (((((Flat.init ["id"]).add valOne 0).1.clear).add valOne 0).1.items = [0]) ∧
    (Flat.runOps (Flat.init ["id"])
        [FlatOp.add valOne 0, FlatOp.clear, FlatOp.add valOne 0] = none) :=
  ⟨rfl, rfl, rfl, rfl, rfl, rfl⟩

/-- Claim C3 as stated is false: with an empty key list, `add` skips its
`while` loop entirely, so the degenerate bucket created by the constructor
never receives any item, and `find` falls through to its trailing
`return []`. -/
theorem comp_empty_keys_counterexample :
    (((Comp.init []).add valUndef 0).index = ([] : List Item)) ∧
    (((Comp.init []).add valUndef 0).items = [0]) ∧
    (Comp.find ((Comp.init []).add valUndef 0) qUndef = []) :=
  ⟨rfl, rfl, rfl⟩

/-- Claim C3, corrected: for an empty key list the constructor does create
a single flat bucket (`new Set()`), but `add` and `remove` never touch the
index (only the membership set changes) and `find` always returns `[]`. -/
theorem comp_empty_keys_degenerate :
    ((Comp.init []).index = ([] : List Item)) ∧
    (∀ (s : Comp []) (val : Valuation) (x : Item),
        ((s.add val x).index = s.index ∧ (s.add val x).items = sadd s.items x) ∧
        ((s.remove val x).index = s.index ∧
          (s.remove val x).items = sdel s.items x)) ∧
    (∀ (s : Comp []) (q : Key → JSVal), s.find q = []) := by
  refine ⟨rfl, ?_, ?_⟩
  · intro s val x
    constructor
    · by_cases h : x ∈ s.items
      · exact ⟨by simp [Comp.add, h], by simp [Comp.add, h, sadd_of_mem _ _ h]⟩
      · exact ⟨by simp [Comp.add, h, cmAdd], by simp [Comp.add, h]⟩
    · by_cases h : x ∈ s.items
      · exact ⟨by simp [Comp.remove, h, cmRemove], by simp [Comp.remove, h]⟩
      · exact ⟨by simp [Comp.remove, h], by simp [Comp.remove, h, sdel_of_not_mem _ _ h]⟩
  · intro s q
    rfl

/-- Claim C6: composite `add` of an item that is already a member (by
identity) is a no-op — the guard `if (!this.items.has(item))` skips both
the membership insertion and the whole index walk. -/
theorem comp_add_idempotent :
    ∀ (ks : List Key) (s : Comp ks) (val : Valuation) (x : Item),
      x ∈ s.items → s.add val x = s := by
  intro ks s val x h
  simp [Comp.add, h]

/-- Witness for `comp_add_idempotent` at a concrete state. -/
theorem comp_add_idempotent_witness :
    (0 ∈ ((Comp.init ["id"]).add valOne 0).items) ∧
    (((Comp.init ["id"]).add valOne 0).add valOne 0 = (Comp.init ["id"]).add valOne 0) :=
  ⟨by decide, comp_add_idempotent ["id"] _ valOne 0 (by decide)⟩

/-- Claim C8: removing a non-member (by identity) leaves both containers
completely unchanged — the flat `remove` early-returns when
`items.delete` reports the item absent, and the composite `remove` is
guarded by `items.has`. -/
theorem remove_nonmember_noop :
    (∀ (s : Flat) (val : Valuation) (x : Item),
        x ∉ s.items → s.remove val x = (s, true)) ∧
    (∀ (ks : List Key) (s : Comp ks) (val : Valuation) (x : Item),
        x ∉ s.items → s.remove val x = s) := by
  constructor
  · intro s val x h
    simp [Flat.remove, h]
  · intro ks s val x h
    simp [Comp.remove, h]

/-- Witness for `remove_nonmember_noop` at concrete states. -/
theorem remove_nonmember_noop_witness :
    (0 ∉ (Flat.init ["k"]).items) ∧
    (Flat.remove (Flat.init ["k"]) valOne 0 = (Flat.init ["k"], true)) ∧
    (0 ∉ (Comp.init ["k"]).items) ∧
    (Comp.remove (Comp.init ["k"]) valOne 0 = Comp.init ["k"]) :=
  ⟨by decide, remove_nonmember_noop.1 _ valOne 0 (by decide),
   by decide, remove_nonmember_noop.2 ["k"] _ valOne 0 (by decide)⟩

/-- Claim C10: the query operations are pure.  Transcribing each query
statement by statement with the state threaded through, every branch
returns the state unchanged (no branch creates a bucket or intermediate
map), and the returned value agrees with the value-only model. -/
theorem queries_pure :
    (∀ (s : Flat) (k : Key) (v : JSVal),
        (s.getByS k v).2 = s ∧ (s.getByS k v).1 = s.getBy k v) ∧
    (∀ (s : Flat) (k : Key),
        (s.getIndexKeysS k).2 = s ∧ (s.getIndexKeysS k).1 = s.getIndexKeys k) ∧
    (∀ (s : Flat) (p : Item → Bool),
        (s.filterS p).2 = s ∧ (s.filterS p).1 = s.filter p) ∧
    (∀ s : Flat, (s.sizeS).2 = s ∧ (s.sizeS).1 = s.size) ∧
    (∀ (ks : List Key) (s : Comp ks) (q : Key → JSVal),
        (s.findS q).2 = s ∧ (s.findS q).1 = s.find q) := by
  refine ⟨?_, ?_, ?_, ?_, ?_⟩
  · intro s k v
    cases hm : mget s.indexes k with
    | none => simp [Flat.getByS, Flat.getBy, hm]
    | some im =>
      cases hb : mget im v with
      | none => simp [Flat.getByS, Flat.getBy, hm, hb]
      | some b => simp [Flat.getByS, Flat.getBy, hm, hb]
  · intro s k
    cases hm : mget s.indexes k with
    | none => simp [Flat.getIndexKeysS, Flat.getIndexKeys, hm]
    | some im => simp [Flat.getIndexKeysS, Flat.getIndexKeys, hm]
  · intro s p
    exact ⟨rfl, rfl⟩
  · intro s
    exact ⟨rfl, rfl⟩
  · intro ks s q
    exact ⟨rfl, rfl⟩

/-! ### Composite exactness (effect of `add`/`remove` on `find`) -/

theorem cmFind_cmEmpty (q : Key → JSVal) :
    ∀ ks : List Key, cmFind q ks (cmEmpty ks) = [] := by
  intro ks
  match ks with
  | [] => rfl
  | [k] => rfl
  | k :: k' :: ks => rfl

/-! Equation lemmas for the nested-map walks, resolving the `match` on the
looked-up child. -/

theorem cmFind_cons_none (q : Key → JSVal) (k k' : Key) (ks : List Key)
    (m : CompositeMap (k :: k' :: ks).length) (hm : mget m (q k) = none) :
    cmFind q (k :: k' :: ks) m = [] := by
  simp [cmFind, hm]

theorem cmFind_cons_some (q : Key → JSVal) (k k' : Key) (ks : List Key)
    (m : CompositeMap (k :: k' :: ks).length) (n : CompositeMap (k' :: ks).length)
    (hm : mget m (q k) = some n) :
    cmFind q (k :: k' :: ks) m = cmFind q (k' :: ks) n := by
  simp [cmFind, hm]

theorem cmRemove_single_none (f : Key → JSVal) (x : Item) (k : Key)
    (m : CompositeMap [k].length) (hm : mget m (f k) = none) :
    cmRemove f x [k] m = m := by
  simp [cmRemove, hm]

theorem cmRemove_single_some (f : Key → JSVal) (x : Item) (k : Key)
    (m : CompositeMap [k].length) (b : List Item) (hm : mget m (f k) = some b) :
    cmRemove f x [k] m =
      if (sdel b x).length = 0 then mdel m (f k) else mset m (f k) (sdel b x) := by
  simp [cmRemove, hm]

theorem cmRemove_cons_none (f : Key → JSVal) (x : Item) (k k' : Key) (ks : List Key)
    (m : CompositeMap (k :: k' :: ks).length) (hm : mget m (f k) = none) :
    cmRemove f x (k :: k' :: ks) m = m := by
  simp [cmRemove, hm]

theorem cmRemove_cons_some (f : Key → JSVal) (x : Item) (k k' : Key) (ks : List Key)
    (m : CompositeMap (k :: k' :: ks).length) (n : CompositeMap (k' :: ks).length)
    (hm : mget m (f k) = some n) :
    cmRemove f x (k :: k' :: ks) m = mset m (f k) (cmRemove f x (k' :: ks) n) := by
  simp [cmRemove, hm]

/-- Effect of one `add` walk on an arbitrary later `find`: the bucket of a
fully matching query gains the item, every other query is untouched. -/
theorem cmFind_cmAdd (f q : Key → JSVal) (x : Item) :
    ∀ (ks : List Key) (t : CompositeMap ks.length), ks ≠ [] →
      cmFind q ks (cmAdd f x ks t) =
        if ∀ k ∈ ks, f k = q k then sadd (cmFind q ks t) x else cmFind q ks t
  | [], _, hne => absurd rfl hne
  | [k], t, _ => by
    by_cases hq : f k = q k
    · rw [if_pos (by simpa using hq)]
      simp only [cmFind, cmAdd, ← hq, mget_mset_self, Option.getD_some]
    · rw [if_neg (by simpa using hq)]
      simp only [cmFind, cmAdd]
      rw [mget_mset_ne _ _ _ _ (Ne.symm hq)]
  | k :: k' :: ks, t, _ => by
    by_cases hq : f k = q k
    · have hcond : (∀ kk ∈ k :: k' :: ks, f kk = q kk) ↔ (∀ kk ∈ k' :: ks, f kk = q kk) := by
        constructor
        · intro h kk hk
          exact h kk (List.mem_cons_of_mem _ hk)
        · intro h kk hk
          rcases List.mem_cons.mp hk with rfl | hk'
          · exact hq
          · exact h kk hk'
      have hset : cmFind q (k :: k' :: ks) (cmAdd f x (k :: k' :: ks) t) =
          cmFind q (k' :: ks) (cmAdd f x (k' :: ks) ((mget t (f k)).getD (cmEmpty (k' :: ks)))) := by
        apply cmFind_cons_some
        rw [cmAdd, ← hq]
        exact mget_mset_self t (f k) _
      rw [hset, cmFind_cmAdd f q x (k' :: ks) _ (by simp)]
      cases hm : mget t (f k) with
      | none =>
        rw [cmFind_cons_none q k k' ks t (hq ▸ hm)]
        simp only [Option.getD_none, cmFind_cmEmpty]
        by_cases hc : ∀ kk ∈ k' :: ks, f kk = q kk
        · rw [if_pos hc, if_pos (hcond.mpr hc)]
        · rw [if_neg hc, if_neg (fun hh => hc (hcond.mp hh))]
      | some n =>
        rw [cmFind_cons_some q k k' ks t n (hq ▸ hm)]
        simp only [Option.getD_some]
        by_cases hc : ∀ kk ∈ k' :: ks, f kk = q kk
        · rw [if_pos hc, if_pos (hcond.mpr hc)]
        · rw [if_neg hc, if_neg (fun hh => hc (hcond.mp hh))]
    · have hcond : ¬ ∀ kk ∈ k :: k' :: ks, f kk = q kk :=
        fun hh => hq (hh k (List.mem_cons_self _ _))
      rw [if_neg hcond]
      cases hm : mget t (q k) with
      | none =>
        have h2 : mget (cmAdd f x (k :: k' :: ks) t) (q k) = none := by
          rw [cmAdd, mget_mset_ne _ _ _ _ (Ne.symm hq)]
          exact hm
        rw [cmFind_cons_none q k k' ks _ h2, cmFind_cons_none q k k' ks t hm]
      | some n =>
        have h2 : mget (cmAdd f x (k :: k' :: ks) t) (q k) = some n := by
          rw [cmAdd, mget_mset_ne _ _ _ _ (Ne.symm hq)]
          exact hm
        rw [cmFind_cons_some q k k' ks _ n h2, cmFind_cons_some q k k' ks t n hm]

/-- Effect of one `remove` walk on an arbitrary later `find`: the bucket of
a fully matching query loses the item (with terminal pruning making a
vanished bucket read as `[]`), every other query is untouched. -/
theorem cmFind_cmRemove (f q : Key → JSVal) (x : Item) :
    ∀ (ks : List Key) (t : CompositeMap ks.length), ks ≠ [] →
      cmFind q ks (cmRemove f x ks t) =
        if ∀ k ∈ ks, f k = q k then sdel (cmFind q ks t) x else cmFind q ks t
  | [], _, hne => absurd rfl hne
  | [k], t, _ => by
    by_cases hq : f k = q k
    · rw [if_pos (by simpa using hq)]
      cases hm : mget t (f k) with
      | none =>
        rw [cmRemove_single_none f x k t hm]
        simp only [cmFind, ← hq, hm, Option.getD_none]
        simp [sdel]
      | some b =>
        rw [cmRemove_single_some f x k t b hm]
        simp only [cmFind, ← hq, hm, Option.getD_some]
        by_cases hz : (sdel b x).length = 0
        · rw [if_pos hz, mget_mdel_self]
          simp only [Option.getD_none]
          exact (List.length_eq_zero.mp hz).symm
        · rw [if_neg hz, mget_mset_self]
          rfl
    · rw [if_neg (by simpa using hq)]
      cases hm : mget t (f k) with
      | none => rw [cmRemove_single_none f x k t hm]
      | some b =>
        rw [cmRemove_single_some f x k t b hm]
        simp only [cmFind]
        by_cases hz : (sdel b x).length = 0
        · rw [if_pos hz, mget_mdel_ne _ _ _ (Ne.symm hq)]
        · rw [if_neg hz, mget_mset_ne _ _ _ _ (Ne.symm hq)]
  | k :: k' :: ks, t, _ => by
    by_cases hq : f k = q k
    · have hcond : (∀ kk ∈ k :: k' :: ks, f kk = q kk) ↔ (∀ kk ∈ k' :: ks, f kk = q kk) := by
        constructor
        · intro h kk hk
          exact h kk (List.mem_cons_of_mem _ hk)
        · intro h kk hk
          rcases List.mem_cons.mp hk with rfl | hk'
          · exact hq
          · exact h kk hk'
      cases hm : mget t (f k) with
      | none =>
        rw [cmRemove_cons_none f x k k' ks t hm,
          cmFind_cons_none q k k' ks t (hq ▸ hm)]
        by_cases hc : ∀ kk ∈ k :: k' :: ks, f kk = q kk
        · rw [if_pos hc]
          simp [sdel]
        · rw [if_neg hc]
      | some n =>
        have ih := cmFind_cmRemove f q x (k' :: ks) n (by simp)
        have h2 : mget (mset t (f k) (cmRemove f x (k' :: ks) n)) (q k) =
            some (cmRemove f x (k' :: ks) n) := by
          rw [← hq]
          exact mget_mset_self t (f k) _
        rw [cmRemove_cons_some f x k k' ks t n hm,
          cmFind_cons_some q k k' ks _ _ h2, ih,
          cmFind_cons_some q k k' ks t n (hq ▸ hm)]
        by_cases hc : ∀ kk ∈ k' :: ks, f kk = q kk
        · rw [if_pos hc, if_pos (hcond.mpr hc)]
        · rw [if_neg hc, if_neg (fun hh => hc (hcond.mp hh))]
    · have hcond : ¬ ∀ kk ∈ k :: k' :: ks, f kk = q kk :=
        fun hh => hq (hh k (List.mem_cons_self _ _))
      rw [if_neg hcond]
      cases hm : mget t (f k) with
      | none => rw [cmRemove_cons_none f x k k' ks t hm]
      | some n =>
        cases hg : mget t (q k) with
        | none =>
          have h2 : mget (cmRemove f x (k :: k' :: ks) t) (q k) = none := by
            rw [cmRemove_cons_some f x k k' ks t n hm,
              mget_mset_ne _ _ _ _ (Ne.symm hq)]
            exact hg
          rw [cmFind_cons_none q k k' ks _ h2, cmFind_cons_none q k k' ks t hg]
        | some n' =>
          have h2 : mget (cmRemove f x (k :: k' :: ks) t) (q k) = some n' := by
            rw [cmRemove_cons_some f x k k' ks t n hm,
              mget_mset_ne _ _ _ _ (Ne.symm hq)]
            exact hg
          rw [cmFind_cons_some q k k' ks _ n' h2, cmFind_cons_some q k k' ks t n' hg]

/-- Exactness invariant for the composite index under a fixed valuation:
membership is duplicate-free and `find` returns exactly the members whose
full tuple over the declared keys equals the query, without duplicates. -/
def CompInv {ks : List Key} (val : Valuation) (s : Comp ks) : Prop :=
  s.items.Nodup ∧
  ∀ q : Key → JSVal,
    (∀ y, y ∈ s.find q ↔ y ∈ s.items ∧ ∀ k ∈ ks, val y k = q k) ∧
    (s.find q).Nodup

theorem compInv_init (ks : List Key) (val : Valuation) : CompInv val (Comp.init ks) := by
  refine ⟨List.nodup_nil, fun q => ⟨fun y => ?_, ?_⟩⟩
  · simp [Comp.find, Comp.init, cmFind_cmEmpty]
  · simp [Comp.find, Comp.init, cmFind_cmEmpty]

theorem compInv_add {ks : List Key} (val : Valuation) (s : Comp ks) (x : Item)
    (hne : ks ≠ []) (h : CompInv val s) : CompInv val (s.add val x) := by
  by_cases hx : x ∈ s.items
  · simpa [Comp.add, hx] using h
  · have hfind : ∀ q, (s.add val x).find q =
        if ∀ k ∈ ks, val x k = q k then sadd (s.find q) x else s.find q := by
      intro q
      simp only [Comp.add, hx, if_neg, ite_false, Comp.find]
      exact cmFind_cmAdd (val x) q x ks s.index hne
    have hitems : (s.add val x).items = sadd s.items x := by
      simp [Comp.add, hx]
    refine ⟨by rw [hitems]; exact sadd_nodup _ _ h.1, fun q => ⟨fun y => ?_, ?_⟩⟩
    · rw [hfind q, hitems]
      by_cases hc : ∀ k ∈ ks, val x k = q k
      · rw [if_pos hc]
        by_cases hyx : y = x
        · subst hyx
          exact iff_of_true (by simp) ⟨by simp, hc⟩
        · simp only [mem_sadd, hyx, false_or]
          exact (h.2 q).1 y
      · rw [if_neg hc]
        by_cases hyx : y = x
        · subst hyx
          simp only [mem_sadd, true_or, true_and]
          constructor
          · intro hy
            exact absurd ((h.2 q).1 y |>.mp hy).1 hx
          · intro hy
            exact absurd hy hc
        · simp only [mem_sadd, hyx, false_or]
          exact (h.2 q).1 y
    · rw [hfind q]
      by_cases hc : ∀ k ∈ ks, val x k = q k
      · rw [if_pos hc]
        exact sadd_nodup _ _ (h.2 q).2
      · rw [if_neg hc]
        exact (h.2 q).2

theorem compInv_remove {ks : List Key} (val : Valuation) (s : Comp ks) (x : Item)
    (hne : ks ≠ []) (h : CompInv val s) : CompInv val (s.remove val x) := by
  by_cases hx : x ∈ s.items
  · have hfind : ∀ q, (s.remove val x).find q =
        if ∀ k ∈ ks, val x k = q k then sdel (s.find q) x else s.find q := by
      intro q
      simp only [Comp.remove, hx, ite_true, Comp.find]
      exact cmFind_cmRemove (val x) q x ks s.index hne
    have hitems : (s.remove val x).items = sdel s.items x := by
      simp [Comp.remove, hx]
    refine ⟨by rw [hitems]; exact sdel_nodup _ _ h.1, fun q => ⟨fun y => ?_, ?_⟩⟩
    · rw [hfind q, hitems]
      by_cases hc : ∀ k ∈ ks, val x k = q k
      · rw [if_pos hc]
        simp only [mem_sdel]
        constructor
        · rintro ⟨hy, hyx⟩
          rcases (h.2 q).1 y |>.mp hy with ⟨hmem, htup⟩
          exact ⟨⟨hmem, hyx⟩, htup⟩
        · rintro ⟨⟨hmem, hyx⟩, htup⟩
          exact ⟨(h.2 q).1 y |>.mpr ⟨hmem, htup⟩, hyx⟩
      · rw [if_neg hc]
        by_cases hyx : y = x
        · subst hyx
          simp only [mem_sdel, ne_eq, not_true_eq_false, and_false, false_and, iff_false]
          intro hy
          exact hc ((h.2 q).1 y |>.mp hy).2
        · simp only [mem_sdel, hyx, ne_eq, not_false_eq_true, and_true]
          exact (h.2 q).1 y
    · rw [hfind q]
      by_cases hc : ∀ k ∈ ks, val x k = q k
      · rw [if_pos hc]
        exact sdel_nodup _ _ (h.2 q).2
      · rw [if_neg hc]
        exact (h.2 q).2
  · simpa [Comp.remove, hx] using h

theorem compInv_runF {ks : List Key} (val : Valuation) (hne : ks ≠ []) :
    ∀ (ops : List CompOpF) (s : Comp ks),
      CompInv val s → CompInv val (Comp.runF val s ops) := by
  intro ops
  induction ops with
  | nil => intro s h; exact h
  | cons op ops ih =>
    intro s h
    cases op with
    | add x => exact ih _ (compInv_add val s x hne h)
    | remove x => exact ih _ (compInv_remove val s x hne h)

/-- Claim C4, amended with a non-empty declared key list: after any
sequence of `add`/`remove` calls under a fixed valuation (attribute values
unchanged while stored), `find q` returns exactly the current members
whose full attribute tuple over the declared keys equals the query —
every such member, each exactly once (no duplicates), and no other item. -/
theorem comp_find_exact (ks : List Key) (val : Valuation) (s : Comp ks)
    (hne : ks ≠ []) (hr : Comp.ReachableF ks val s) (q : Key → JSVal) :
    (∀ y, y ∈ s.find q ↔ y ∈ s.items ∧ ∀ k ∈ ks, val y k = q k) ∧
    (s.find q).Nodup := by
  obtain ⟨ops, rfl⟩ := hr
  exact (compInv_runF val hne ops (Comp.init ks) (compInv_init ks val)).2 q

/-- Witness for `comp_find_exact`: one key `"id"`, the item's `"id"` reads
as its identity, after adding items 0 and 1 and removing 1, the query
`id = 0` returns exactly item 0. -/
theorem comp_find_exact_witness :
    (0 ∈ Comp.find (Comp.runF (fun x _ => JSVal.num x) (Comp.init ["id"])
        [CompOpF.add 0, CompOpF.add 1, CompOpF.remove 1]) (fun _ => JSVal.num 0) ↔
      (0 ∈ (Comp.runF (fun x _ => JSVal.num x) (Comp.init ["id"])
        [CompOpF.add 0, CompOpF.add 1, CompOpF.remove 1]).items ∧
        ∀ k ∈ ["id"], (fun (x : Item) (_ : Key) => JSVal.num x) 0 k = (fun _ => JSVal.num 0) k)) ∧
    (Comp.find (Comp.runF (fun x _ => JSVal.num x) (Comp.init ["id"])
        [CompOpF.add 0, CompOpF.add 1, CompOpF.remove 1]) (fun _ => JSVal.num 0)).Nodup :=
  ⟨(comp_find_exact ["id"] (fun x _ => JSVal.num x) _ (by simp)
      ⟨[CompOpF.add 0, CompOpF.add 1, CompOpF.remove 1], rfl⟩ (fun _ => JSVal.num 0)).1 0,
   (comp_find_exact ["id"] (fun x _ => JSVal.num x) _ (by simp)
      ⟨[CompOpF.add 0, CompOpF.add 1, CompOpF.remove 1], rfl⟩ (fun _ => JSVal.num 0)).2⟩

/-- Claim C4 as stated is false in the degenerate empty-key-list case:
item 0 is a current member and its (empty) attribute tuple trivially
equals the (empty) query tuple, yet `find` returns the empty result. -/
theorem comp_find_exact_counterexample :
    (0 ∈ ((Comp.init []).add valUndef 0).items) ∧
    (∀ k ∈ ([] : List Key), valUndef 0 k = qUndef k) ∧
    (0 ∉ Comp.find ((Comp.init []).add valUndef 0) qUndef) :=
  ⟨by decide, by simp, by decide⟩

/-! ### Flat collection invariants

The invariant carried by every state reachable through completed calls:
index-map keys are declared keys, membership is duplicate-free, either
every declared key has its index map (as after construction) or the outer
map is empty (as after `clear()`), and no persisted bucket is empty. -/

/-- No bucket of a per-attribute index map is empty. -/
def IMapOK (im : List (JSVal × List Item)) : Prop :=
  ∀ v b, mget im v = some b → b ≠ []

/-- No bucket of any per-attribute index map is empty. -/
def BucketsOK (m : List (Key × List (JSVal × List Item))) : Prop :=
  ∀ k im, mget m k = some im → IMapOK im

structure FlatInv (s : Flat) : Prop where
  keysSub : ∀ k, k ∈ mkeys s.indexes → k ∈ s.keys
  nodupItems : s.items.Nodup
  present : (∀ k, k ∈ s.keys → (mget s.indexes k).isSome) ∨ s.indexes = []
  buckets : BucketsOK s.indexes

theorem mget_isSome_mset {α β : Type} [DecidableEq α] (m : List (α × β)) (a c : α) (b : β)
    (h : (mget m c).isSome) : (mget (mset m a b) c).isSome := by
  by_cases hc : c = a
  · subst hc
    rw [mget_mset_self]
    rfl
  · rwa [mget_mset_ne _ _ _ _ hc]

theorem initIndexes_keysSub :
    ∀ (ks : List Key) (m0 : List (Key × List (JSVal × List Item))) (k : Key),
      k ∈ mkeys (ks.foldl (fun m k => mset m k []) m0) → k ∈ ks ∨ k ∈ mkeys m0 := by
  intro ks
  induction ks with
  | nil => intro m0 k h; exact Or.inr h
  | cons k0 ks ih =>
    intro m0 k h
    rw [List.foldl_cons] at h
    rcases ih (mset m0 k0 []) k h with h' | h'
    · exact Or.inl (List.mem_cons_of_mem _ h')
    · rcases (mem_mkeys_mset m0 k0 k []).mp h' with rfl | h''
      · exact Or.inl (List.mem_cons_self _ _)
      · exact Or.inr h''

theorem initIndexes_present :
    ∀ (ks : List Key) (m0 : List (Key × List (JSVal × List Item))) (k : Key),
      k ∈ ks ∨ (mget m0 k).isSome →
      (mget (ks.foldl (fun m k => mset m k []) m0) k).isSome := by
  intro ks
  induction ks with
  | nil =>
    intro m0 k h
    rcases h with h | h
    · simp at h
    · exact h
  | cons k0 ks ih =>
    intro m0 k h
    rw [List.foldl_cons]
    apply ih
    rcases h with h | h
    · rcases List.mem_cons.mp h with rfl | h'
      · right
        rw [mget_mset_self]
        rfl
      · exact Or.inl h'
    · exact Or.inr (mget_isSome_mset m0 k0 k [] h)

theorem initIndexes_buckets :
    ∀ (ks : List Key) (m0 : List (Key × List (JSVal × List Item))),
      BucketsOK m0 → BucketsOK (ks.foldl (fun m k => mset m k []) m0) := by
  intro ks
  induction ks with
  | nil => intro m0 h; exact h
  | cons k0 ks ih =>
    intro m0 h
    rw [List.foldl_cons]
    apply ih
    intro k im hk
    rcases mget_mset_cases m0 k0 k [] im hk with ⟨rfl, rfl⟩ | h'
    · intro v b hb
      simp [mget] at hb
    · exact h k im h'

theorem flatInv_init (ks : List Key) : FlatInv (Flat.init ks) := by
  refine ⟨?_, List.nodup_nil, Or.inl ?_, ?_⟩
  · intro k h
    rcases initIndexes_keysSub ks [] k h with h' | h'
    · exact h'
    · simp at h'
  · intro k h
    exact initIndexes_present ks [] k (Or.inl h)
  · exact initIndexes_buckets ks [] (fun k im h => by simp [mget] at h)

theorem bucketAdd_ok (im : List (JSVal × List Item)) (v : JSVal) (x : Item)
    (h : IMapOK im) : IMapOK (bucketAdd im v x) := by
  intro v' b hb
  rcases mget_mset_cases im v v' _ b hb with ⟨rfl, rfl⟩ | h'
  · exact sadd_ne_nil _ _
  · exact h v' b h'

theorem bucketRemove_ok (im : List (JSVal × List Item)) (v : JSVal) (x : Item)
    (h : IMapOK im) : IMapOK (bucketRemove im v x) := by
  intro v' b hb
  unfold bucketRemove at hb
  cases hm : mget im v with
  | none =>
    rw [hm] at hb
    exact h v' b hb
  | some b0 =>
    rw [hm] at hb
    simp only at hb
    by_cases hz : (sdel b0 x).length = 0
    · rw [if_pos hz] at hb
      exact h v' b (mget_mdel_cases im v v' b hb)
    · rw [if_neg hz] at hb
      rcases mget_mset_cases im v v' _ b hb with ⟨rfl, rfl⟩ | h'
      · intro hnil
        rw [hnil] at hz
        simp at hz
      · exact h v' b h'

theorem idx_mset_buckets (m : List (Key × List (JSVal × List Item))) (k : Key)
    (im' : List (JSVal × List Item)) (h : BucketsOK m) (h' : IMapOK im') :
    BucketsOK (mset m k im') := by
  intro k' im hk
  rcases mget_mset_cases m k k' im' im hk with ⟨rfl, rfl⟩ | hh
  · exact h'
  · exact h k' im hh

theorem addLoop_mkeys (val : Valuation) (x : Item) :
    ∀ (ks' : List Key) (s : Flat),
      mkeys (Flat.addLoop val x ks' s).1.indexes = mkeys s.indexes := by
  intro ks'
  induction ks' with
  | nil => intro s; rfl
  | cons k0 ks' ih =>
    intro s
    simp only [Flat.addLoop]
    cases hm : mget s.indexes k0 with
    | none => rfl
    | some im =>
      rw [ih]
      exact mkeys_mset_present s.indexes k0 _ (by rw [hm]; rfl)

theorem addLoop_buckets (val : Valuation) (x : Item) :
    ∀ (ks' : List Key) (s : Flat),
      BucketsOK s.indexes → BucketsOK (Flat.addLoop val x ks' s).1.indexes := by
  intro ks'
  induction ks' with
  | nil => intro s h; exact h
  | cons k0 ks' ih =>
    intro s h
    simp only [Flat.addLoop]
    cases hm : mget s.indexes k0 with
    | none => exact h
    | some im =>
      exact ih _ (idx_mset_buckets s.indexes k0 _ h (bucketAdd_ok im _ x (h k0 im hm)))

theorem removeLoop_items (val : Valuation) (x : Item) :
    ∀ (ks' : List Key) (s : Flat),
      (Flat.removeLoop val x ks' s).1.items = s.items ∧
      (Flat.removeLoop val x ks' s).1.keys = s.keys := by
  intro ks'
  induction ks' with
  | nil => intro s; exact ⟨rfl, rfl⟩
  | cons k0 ks' ih =>
    intro s
    simp only [Flat.removeLoop]
    cases hm : mget s.indexes k0 with
    | none => exact ⟨rfl, rfl⟩
    | some im => exact ih _

theorem removeLoop_mkeys (val : Valuation) (x : Item) :
    ∀ (ks' : List Key) (s : Flat),
      mkeys (Flat.removeLoop val x ks' s).1.indexes = mkeys s.indexes := by
  intro ks'
  induction ks' with
  | nil => intro s; rfl
  | cons k0 ks' ih =>
    intro s
    simp only [Flat.removeLoop]
    cases hm : mget s.indexes k0 with
    | none => rfl
    | some im =>
      rw [ih]
      exact mkeys_mset_present s.indexes k0 _ (by rw [hm]; rfl)

theorem removeLoop_buckets (val : Valuation) (x : Item) :
    ∀ (ks' : List Key) (s : Flat),
      BucketsOK s.indexes → BucketsOK (Flat.removeLoop val x ks' s).1.indexes := by
  intro ks'
  induction ks' with
  | nil => intro s h; exact h
  | cons k0 ks' ih =>
    intro s h
    simp only [Flat.removeLoop]
    cases hm : mget s.indexes k0 with
    | none => exact h
    | some im =>
      exact ih _ (idx_mset_buckets s.indexes k0 _ h (bucketRemove_ok im _ x (h k0 im hm)))

theorem removeLoop_ok (val : Valuation) (x : Item) :
    ∀ (ks' : List Key) (s : Flat),
      (∀ k ∈ ks', (mget s.indexes k).isSome) →
      (Flat.removeLoop val x ks' s).2 = true := by
  intro ks'
  induction ks' with
  | nil => intro s _; rfl
  | cons k0 ks' ih =>
    intro s hp
    simp only [Flat.removeLoop]
    cases hm : mget s.indexes k0 with
    | none =>
      have := hp k0 (List.mem_cons_self _ _)
      rw [hm] at this
      simp at this
    | some im =>
      apply ih
      intro k hk
      exact mget_isSome_mset s.indexes k0 k _ (hp k (List.mem_cons_of_mem _ hk))

theorem flatInv_add (s : Flat) (val : Valuation) (x : Item) (h : FlatInv s) :
    FlatInv (s.add val x).1 := by
  have hkeys : (s.add val x).1.keys = s.keys := (addLoop_items val x s.keys _).2
  have hmk : mkeys (s.add val x).1.indexes = mkeys s.indexes := addLoop_mkeys val x s.keys _
  refine ⟨?_, ?_, ?_, ?_⟩
  · intro k hk
    rw [hkeys]
    exact h.keysSub k (hmk ▸ hk)
  · have hit : (s.add val x).1.items = sadd s.items x :=
      (addLoop_items val x s.keys { s with items := sadd s.items x }).1
    rw [hit]
    exact sadd_nodup _ _ h.nodupItems
  · rcases h.present with hp | hp
    · left
      intro k hk
      rw [hkeys] at hk
      rw [mget_isSome_iff_mem_mkeys, hmk, ← mget_isSome_iff_mem_mkeys]
      exact hp k hk
    · right
      apply mkeys_eq_nil
      rw [hmk, hp]
      rfl
  · exact addLoop_buckets val x s.keys _ h.buckets

theorem flatInv_remove (s : Flat) (val : Valuation) (x : Item) (h : FlatInv s) :
    FlatInv (s.remove val x).1 := by
  unfold Flat.remove
  by_cases hx : x ∈ s.items
  · rw [if_pos hx]
    have hkeys := (removeLoop_items val x s.keys { s with items := sdel s.items x }).2
    have hmk := removeLoop_mkeys val x s.keys
      { s with items := sdel s.items x }
    refine ⟨?_, ?_, ?_, ?_⟩
    · intro k hk
      rw [hkeys]
      exact h.keysSub k (hmk ▸ hk)
    · rw [(removeLoop_items val x s.keys { s with items := sdel s.items x }).1]
      exact sdel_nodup _ _ h.nodupItems
    · rcases h.present with hp | hp
      · left
        intro k hk
        rw [hkeys] at hk
        rw [mget_isSome_iff_mem_mkeys, hmk, ← mget_isSome_iff_mem_mkeys]
        exact hp k hk
      · right
        apply mkeys_eq_nil
        rw [hmk, hp]
        rfl
    · exact removeLoop_buckets val x s.keys _ h.buckets
  · rw [if_neg hx]
    exact h

theorem remove_items_iff (s : Flat) (val : Valuation) (x : Item) :
    ∀ y, y ∈ (s.remove val x).1.items ↔ y ∈ s.items ∧ y ≠ x := by
  intro y
  unfold Flat.remove
  by_cases hx : x ∈ s.items
  · rw [if_pos hx, (removeLoop_items val x s.keys _).1]
    exact mem_sdel s.items x y
  · rw [if_neg hx]
    constructor
    · intro hy
      refine ⟨hy, ?_⟩
      rintro rfl
      exact hx hy
    · exact fun hy => hy.1

theorem remove_ok (s : Flat) (val : Valuation) (x : Item)
    (hp : ∀ k ∈ s.keys, (mget s.indexes k).isSome) :
    (s.remove val x).2 = true ∧ (s.remove val x).1.keys = s.keys ∧
    (∀ k ∈ s.keys, (mget (s.remove val x).1.indexes k).isSome) := by
  unfold Flat.remove
  by_cases hx : x ∈ s.items
  · rw [if_pos hx]
    refine ⟨removeLoop_ok val x s.keys _ hp, (removeLoop_items val x s.keys _).2, ?_⟩
    intro k hk
    rw [mget_isSome_iff_mem_mkeys, removeLoop_mkeys val x s.keys _,
      ← mget_isSome_iff_mem_mkeys]
    exact hp k hk
  · rw [if_neg hx]
    exact ⟨rfl, rfl, hp⟩

theorem removeBy_fold_spec (val : Valuation) :
    ∀ (b : List Item) (s0 : Flat), FlatInv s0 →
      (∀ k ∈ s0.keys, (mget s0.indexes k).isSome) →
      (b.foldl (fun acc x => if acc.2 then Flat.remove acc.1 val x else acc) (s0, true)).2
          = true ∧
      FlatInv (b.foldl (fun acc x => if acc.2 then Flat.remove acc.1 val x else acc)
          (s0, true)).1 ∧
      (∀ y, y ∈ (b.foldl (fun acc x => if acc.2 then Flat.remove acc.1 val x else acc)
          (s0, true)).1.items ↔ y ∈ s0.items ∧ y ∉ b) := by
  intro b
  induction b with
  | nil =>
    intro s0 h hp
    refine ⟨rfl, h, fun y => ?_⟩
    simp
  | cons z b ih =>
    intro s0 h hp
    have hz := remove_ok s0 val z hp
    have heta : Flat.remove s0 val z = ((Flat.remove s0 val z).1, (Flat.remove s0 val z).2) :=
      rfl
    have hstep : List.foldl (fun acc x => if acc.2 then Flat.remove acc.1 val x else acc)
        (s0, true) (z :: b) =
        List.foldl (fun acc x => if acc.2 then Flat.remove acc.1 val x else acc)
        ((Flat.remove s0 val z).1, true) b := by
      rw [List.foldl_cons]
      simp only [if_pos]
      rw [heta, hz.1]
    have hinv1 : FlatInv (Flat.remove s0 val z).1 := flatInv_remove s0 val z h
    have hp1 : ∀ k ∈ (Flat.remove s0 val z).1.keys,
        (mget (Flat.remove s0 val z).1.indexes k).isSome := by
      intro k hk
      rw [hz.2.1] at hk
      exact hz.2.2 k hk
    obtain ⟨hok, hinv, hmem⟩ := ih (Flat.remove s0 val z).1 hinv1 hp1
    rw [hstep]
    refine ⟨hok, hinv, fun y => ?_⟩
    rw [hmem y, remove_items_iff s0 val z y]
    constructor
    · rintro ⟨⟨hy, hyz⟩, hyb⟩
      refine ⟨hy, ?_⟩
      simp only [List.mem_cons, not_or]
      exact ⟨hyz, hyb⟩
    · rintro ⟨hy, hyzb⟩
      simp only [List.mem_cons, not_or] at hyzb
      exact ⟨⟨hy, hyzb.1⟩, hyzb.2⟩

theorem removeBy_eq_nokey (s : Flat) (val : Valuation) (k : Key) (v : JSVal)
    (hm : mget s.indexes k = none) : s.removeBy val k v = (s, true) := by
  simp [Flat.removeBy, hm]

theorem removeBy_eq_noval (s : Flat) (val : Valuation) (k : Key) (v : JSVal)
    (im : List (JSVal × List Item)) (hm : mget s.indexes k = some im)
    (hb : mget im v = none) : s.removeBy val k v = (s, true) := by
  simp [Flat.removeBy, hm, hb]

theorem removeBy_eq_fold (s : Flat) (val : Valuation) (k : Key) (v : JSVal)
    (im : List (JSVal × List Item)) (b : List Item)
    (hm : mget s.indexes k = some im) (hb : mget im v = some b) :
    s.removeBy val k v =
      b.foldl (fun acc x => if acc.2 then Flat.remove acc.1 val x else acc) (s, true) := by
  simp [Flat.removeBy, hm, hb]

theorem removeBy_spec (s : Flat) (val : Valuation) (k : Key) (v : JSVal)
    (h : FlatInv s) :
    (s.removeBy val k v).2 = true ∧ FlatInv (s.removeBy val k v).1 ∧
    (∀ y, y ∈ (s.removeBy val k v).1.items ↔ y ∈ s.items ∧ y ∉ s.getBy k v) := by
  cases hm : mget s.indexes k with
  | none =>
    rw [removeBy_eq_nokey s val k v hm]
    refine ⟨rfl, h, fun y => ?_⟩
    simp [Flat.getBy, hm]
  | some im =>
    cases hb : mget im v with
    | none =>
      rw [removeBy_eq_noval s val k v im hm hb]
      refine ⟨rfl, h, fun y => ?_⟩
      simp [Flat.getBy, hm, hb]
    | some b =>
      rw [removeBy_eq_fold s val k v im b hm hb]
      have hp : ∀ k' ∈ s.keys, (mget s.indexes k').isSome := by
        rcases h.present with hp | hp
        · exact hp
        · rw [hp] at hm
          simp [mget] at hm
      have hgb : s.getBy k v = b := by
        simp [Flat.getBy, hm, hb]
      obtain ⟨hok, hinv, hmem⟩ := removeBy_fold_spec val b s h hp
      exact ⟨hok, hinv, fun y => by rw [hmem y, hgb]⟩

theorem flatInv_clear (s : Flat) : FlatInv s.clear := by
  refine ⟨?_, List.nodup_nil, Or.inr rfl, ?_⟩
  · intro k hk
    simp [Flat.clear, mkeys] at hk
  · intro k im hk
    simp [Flat.clear, mget] at hk

theorem flatInv_app (s s1 : Flat) (op : FlatOp) (h : FlatInv s)
    (happ : FlatOp.app s op = (s1, true)) : FlatInv s1 := by
  cases op with
  | add val x =>
    have : (s.add val x).1 = s1 := by rw [show FlatOp.app s (FlatOp.add val x) = s.add val x from rfl] at happ; rw [happ]
    exact this ▸ flatInv_add s val x h
  | remove val x =>
    have : (s.remove val x).1 = s1 := by rw [show FlatOp.app s (FlatOp.remove val x) = s.remove val x from rfl] at happ; rw [happ]
    exact this ▸ flatInv_remove s val x h
  | removeBy val k v =>
    have : (s.removeBy val k v).1 = s1 := by rw [show FlatOp.app s (FlatOp.removeBy val k v) = s.removeBy val k v from rfl] at happ; rw [happ]
    exact this ▸ (removeBy_spec s val k v h).2.1
  | clear =>
    have : s.clear = s1 := by
      have := congrArg Prod.fst happ
      exact this
    exact this ▸ flatInv_clear s

theorem runOps_inv : ∀ (ops : List FlatOp) (s s' : Flat),
    FlatInv s → Flat.runOps s ops = some s' → FlatInv s' := by
  intro ops
  induction ops with
  | nil =>
    intro s s' h hr
    simp only [Flat.runOps, Option.some_inj] at hr
    exact hr ▸ h
  | cons op ops ih =>
    intro s s' h hr
    simp only [Flat.runOps] at hr
    cases happ : FlatOp.app s op with
    | mk s1 ok =>
      rw [happ] at hr
      cases ok with
      | false => simp at hr
      | true => exact ih s1 s' (flatInv_app s s1 op h happ) hr

theorem flat_reachable_inv (ks : List Key) (s : Flat) (h : Flat.Reachable ks s) :
    FlatInv s := by
  obtain ⟨ops, hr⟩ := h
  exact runOps_inv ops (Flat.init ks) s (flatInv_init ks) hr

/-! ### No empty buckets in the composite index -/

/-- Every terminal bucket reachable in the nested index is non-empty
(intermediate maps are not pruned by the source and are not required to
be empty-free of children — only terminal buckets are pruned). -/
def cmNoEmpty : (ks : List Key) → CompositeMap ks.length → Prop
  | [], _ => True
  | [_], m => ∀ v b, mget m v = some b → b ≠ []
  | _ :: k' :: ks, m => ∀ v t, mget m v = some t → cmNoEmpty (k' :: ks) t

theorem cmNoEmpty_cmEmpty : ∀ ks : List Key, cmNoEmpty ks (cmEmpty ks) := by
  intro ks
  match ks with
  | [] => trivial
  | [k] =>
    intro v b hb
    simp [cmEmpty, mget] at hb
  | k :: k' :: ks =>
    intro v t ht
    simp [cmEmpty, mget] at ht

theorem cmNoEmpty_cmAdd (f : Key → JSVal) (x : Item) :
    ∀ (ks : List Key) (t : CompositeMap ks.length),
      cmNoEmpty ks t → cmNoEmpty ks (cmAdd f x ks t)
  | [], t, h => h
  | [k], t, h => by
    intro v b hb
    rcases mget_mset_cases t (f k) v _ b hb with ⟨rfl, rfl⟩ | h'
    · exact sadd_ne_nil _ _
    · exact h v b h'
  | k :: k' :: ks, t, h => by
    intro v t' ht
    rcases mget_mset_cases t (f k) v _ t' ht with ⟨rfl, rfl⟩ | h'
    · apply cmNoEmpty_cmAdd
      cases hm : mget t (f k) with
      | none => exact cmNoEmpty_cmEmpty (k' :: ks)
      | some n => exact h (f k) n hm
    · exact h v t' h'

theorem cmNoEmpty_cmRemove (f : Key → JSVal) (x : Item) :
    ∀ (ks : List Key) (t : CompositeMap ks.length),
      cmNoEmpty ks t → cmNoEmpty ks (cmRemove f x ks t)
  | [], t, h => h
  | [k], t, h => by
    cases hm : mget t (f k) with
    | none =>
      rw [cmRemove_single_none f x k t hm]
      exact h
    | some b =>
      rw [cmRemove_single_some f x k t b hm]
      by_cases hz : (sdel b x).length = 0
      · rw [if_pos hz]
        intro v b' hb
        exact h v b' (mget_mdel_cases t (f k) v b' hb)
      · rw [if_neg hz]
        intro v b' hb
        rcases mget_mset_cases t (f k) v _ b' hb with ⟨rfl, rfl⟩ | h'
        · intro hnil
          rw [hnil] at hz
          simp at hz
        · exact h v b' h'
  | k :: k' :: ks, t, h => by
    cases hm : mget t (f k) with
    | none =>
      rw [cmRemove_cons_none f x k k' ks t hm]
      exact h
    | some n =>
      rw [cmRemove_cons_some f x k k' ks t n hm]
      intro v t' ht
      rcases mget_mset_cases t (f k) v _ t' ht with ⟨rfl, rfl⟩ | h'
      · exact cmNoEmpty_cmRemove f x (k' :: ks) n (h (f k) n hm)
      · exact h v t' h'

theorem cmNoEmpty_run {ks : List Key} :
    ∀ (ops : List CompOp) (s : Comp ks),
      cmNoEmpty ks s.index → cmNoEmpty ks ((s.run ops).index) := by
  intro ops
  induction ops with
  | nil => intro s h; exact h
  | cons op ops ih =>
    intro s h
    cases op with
    | add val x =>
      apply ih
      by_cases hx : x ∈ s.items
      · simpa [Comp.add, hx] using h
      · simpa [Comp.add, hx] using cmNoEmpty_cmAdd (val x) x ks s.index h
    | remove val x =>
      apply ih
      by_cases hx : x ∈ s.items
      · simpa [Comp.remove, hx] using cmNoEmpty_cmRemove (val x) x ks s.index h
      · simpa [Comp.remove, hx] using h

/-- Claim C5: no empty buckets.  In every reachable state of the flat
collection, every value listed by `getIndexKeys(k)` has a non-empty
`getBy(k, value)` (a bucket whose last item is removed is deleted from its
parent map); and in every reachable state of the composite index every
terminal bucket is non-empty (terminal-bucket pruning). -/
theorem no_empty_buckets :
    (∀ (ks : List Key) (s : Flat), Flat.Reachable ks s →
        ∀ (k : Key) (v : JSVal), v ∈ s.getIndexKeys k → s.getBy k v ≠ []) ∧
    (∀ (ks : List Key) (s : Comp ks), Comp.Reachable ks s → cmNoEmpty ks s.index) := by
  constructor
  · intro ks s hr k v hv
    have h := flat_reachable_inv ks s hr
    cases hm : mget s.indexes k with
    | none => simp [Flat.getIndexKeys, hm] at hv
    | some im =>
      simp only [Flat.getIndexKeys, hm] at hv
      have hsome : (mget im v).isSome := (mget_isSome_iff_mem_mkeys im v).mpr hv
      cases hb : mget im v with
      | none => rw [hb] at hsome; simp at hsome
      | some b =>
        have hne : b ≠ [] := h.buckets k im hm v b hb
        simpa [Flat.getBy, hm, hb] using hne
  · intro ks s hr
    obtain ⟨ops, rfl⟩ := hr
    exact cmNoEmpty_run ops (Comp.init ks) (cmNoEmpty_cmEmpty ks)

/-- Witness for `no_empty_buckets` at concrete reachable states. -/
theorem no_empty_buckets_witness :
    (Flat.getBy ((Flat.init ["k"]).add valOne 0).1 "k" (JSVal.num 1) ≠ []) ∧
    cmNoEmpty ["k"] (((Comp.init ["k"]).add valOne 0).index) :=
  ⟨no_empty_buckets.1 ["k"] _ ⟨[FlatOp.add valOne 0], rfl⟩ "k" (JSVal.num 1) (by decide),
   no_empty_buckets.2 ["k"] _ ⟨[CompOp.add valOne 0], rfl⟩⟩

/-- Claim C7: size agreement.  In every reachable state `size()` equals
`filter(() => true).length` and membership is duplicate-free; a completed
`add` grows the size by one exactly when the item was not already a member
(by identity), `remove` shrinks it by one exactly when it was, `removeBy`
completes and removes exactly the current members of the looked-up
bucket, and `clear` resets the size to zero. -/
theorem size_agreement :
    (∀ (ks : List Key) (s : Flat), Flat.Reachable ks s →
        s.size = (s.filter (fun _ => true)).length ∧ s.items.Nodup) ∧
    (∀ (s : Flat) (val : Valuation) (x : Item),
        (s.add val x).1.size = if x ∈ s.items then s.size else s.size + 1) ∧
    (∀ (s : Flat) (val : Valuation) (x : Item), s.items.Nodup →
        (s.remove val x).1.size = if x ∈ s.items then s.size - 1 else s.size) ∧
    (∀ (ks : List Key) (s : Flat) (val : Valuation) (k : Key) (v : JSVal),
        Flat.Reachable ks s →
        (s.removeBy val k v).2 = true ∧
        (∀ y, y ∈ (s.removeBy val k v).1.items ↔ y ∈ s.items ∧ y ∉ s.getBy k v)) ∧
    (∀ s : Flat, s.clear.size = 0) := by
  refine ⟨?_, ?_, ?_, ?_, ?_⟩
  · intro ks s hr
    refine ⟨?_, (flat_reachable_inv ks s hr).nodupItems⟩
    simp [Flat.size, Flat.filter]
  · intro s val x
    have hit : (s.add val x).1.items = sadd s.items x :=
      (addLoop_items val x s.keys { s with items := sadd s.items x }).1
    rw [Flat.size, hit, sadd_length]
    rfl
  · intro s val x hn
    unfold Flat.remove
    by_cases hx : x ∈ s.items
    · rw [if_pos hx, if_pos hx, Flat.size,
        (removeLoop_items val x s.keys { s with items := sdel s.items x }).1]
      exact sdel_length_of_mem s.items x hn hx
    · rw [if_neg hx, if_neg hx]
  · intro ks s val k v hr
    have h := flat_reachable_inv ks s hr
    exact ⟨(removeBy_spec s val k v h).1, (removeBy_spec s val k v h).2.2⟩
  · intro s
    rfl

/-- Witness for `size_agreement` at concrete states. -/
theorem size_agreement_witness :
    (((Flat.init ["k"]).add valOne 0).1.size =
      (((Flat.init ["k"]).add valOne 0).1.filter (fun _ => true)).length ∧
      ((Flat.init ["k"]).add valOne 0).1.items.Nodup) ∧
    (((Flat.init ["k"]).add valOne 0).1.size =
      if 0 ∈ (Flat.init ["k"]).items then (Flat.init ["k"]).size
      else (Flat.init ["k"]).size + 1) ∧
    ((((Flat.init ["k"]).add valOne 0).1.remove valOne 0).1.size =
      if 0 ∈ ((Flat.init ["k"]).add valOne 0).1.items
      then ((Flat.init ["k"]).add valOne 0).1.size - 1
      else ((Flat.init ["k"]).add valOne 0).1.size) ∧
    ((((Flat.init ["k"]).add valOne 0).1.removeBy valOne "k" (JSVal.num 1)).2 = true) ∧
    ((Flat.init ["k"]).clear.size = 0) :=
  ⟨size_agreement.1 ["k"] _ ⟨[FlatOp.add valOne 0], rfl⟩,
   size_agreement.2.1 (Flat.init ["k"]) valOne 0,
   size_agreement.2.2.1 ((Flat.init ["k"]).add valOne 0).1 valOne 0 (by decide),
   (size_agreement.2.2.2.1 ["k"] _ valOne "k" (JSVal.num 1)
      ⟨[FlatOp.add valOne 0], rfl⟩).1,
   size_agreement.2.2.2.2 (Flat.init ["k"])⟩

/-- Claim C9: fail-soft error policy.  In every reachable state, a lookup
or `removeBy` with an undeclared key, or a value present in no bucket,
returns an empty result or is a completed no-op — never an error. -/
theorem fail_soft :
    ∀ (ks : List Key) (s : Flat), Flat.Reachable ks s →
      ∀ (val : Valuation) (k : Key) (v : JSVal),
        (k ∉ s.keys →
          s.getBy k v = [] ∧ s.getIndexKeys k = [] ∧ s.removeBy val k v = (s, true)) ∧
        (v ∉ s.getIndexKeys k →
          s.getBy k v = [] ∧ s.removeBy val k v = (s, true)) := by
  intro ks s hr val k v
  have h := flat_reachable_inv ks s hr
  constructor
  · intro hk
    have hnone : mget s.indexes k = none := by
      cases hm : mget s.indexes k with
      | none => rfl
      | some im =>
        exact absurd (h.keysSub k ((mget_isSome_iff_mem_mkeys _ _).mp (by rw [hm]; rfl)))
          hk
    exact ⟨by simp [Flat.getBy, hnone], by simp [Flat.getIndexKeys, hnone],
      removeBy_eq_nokey s val k v hnone⟩
  · intro hv
    cases hm : mget s.indexes k with
    | none =>
      exact ⟨by simp [Flat.getBy, hm], removeBy_eq_nokey s val k v hm⟩
    | some im =>
      have hvn : mget im v = none := by
        cases hb : mget im v with
        | none => rfl
        | some b =>
          exact absurd (by
            simp only [Flat.getIndexKeys, hm]
            exact (mget_isSome_iff_mem_mkeys im v).mp (by rw [hb]; rfl)) hv
      exact ⟨by simp [Flat.getBy, hm, hvn], removeBy_eq_noval s val k v im hm hvn⟩

/-- Witness for `fail_soft`: unknown key "z" and unknown value 9 on a
one-item collection. -/
theorem fail_soft_witness :
    (Flat.getBy ((Flat.init ["k"]).add valOne 0).1 "z" (JSVal.num 1) = [] ∧
      Flat.getIndexKeys ((Flat.init ["k"]).add valOne 0).1 "z" = [] ∧
      Flat.removeBy ((Flat.init ["k"]).add valOne 0).1 valOne "z" (JSVal.num 1) =
        (((Flat.init ["k"]).add valOne 0).1, true)) ∧
    (Flat.getBy ((Flat.init ["k"]).add valOne 0).1 "k" (JSVal.num 9) = [] ∧
      Flat.removeBy ((Flat.init ["k"]).add valOne 0).1 valOne "k" (JSVal.num 9) =
        (((Flat.init ["k"]).add valOne 0).1, true)) :=
  ⟨(fail_soft ["k"] _ ⟨[FlatOp.add valOne 0], rfl⟩ valOne "z" (JSVal.num 1)).1 (by decide),
   (fail_soft ["k"] _ ⟨[FlatOp.add valOne 0], rfl⟩ valOne "k" (JSVal.num 9)).2 (by decide)⟩

end GasIndex
